import Mathlib

/-!
Verification development for the `batcave` concurrency library
(`src/build/batcave.esm.js`).

The embedding covers the two core components:

* `queue(concurrencyLimit)` — a bounded-concurrency task scheduler.  Its
  closure state (the `queue` array of pending actions, the `promises`
  WeakMap from action identity to the promise callbacks of the most
  recent `push` of that action, and the `running` Set) is embedded as
  the record `Batcave.QueueState`, and the closure functions `run`,
  `push`, `clear` become the state transformers `Batcave.run`,
  `Batcave.push`, `Batcave.clear`.  Action identity (the JS callable
  object reference used as the WeakMap key) is embedded as a `Nat`.
  A task settling is the event `Batcave.settle`, which performs the
  settlement of the promise created at push time, the `cleanup`
  callback of the source (`running.delete`, `promises.delete`) and the
  re-trigger of `run`, as one atomic step.  The microtask `run`
  triggers that the source schedules with `Promise.resolve().then(run)`
  are modelled by allowing a `runTrigger` event at any point of a
  trace, which over-approximates the schedules the event loop can
  produce.  The `throw new Error(...)` in `run` is recorded in a ghost
  `errors` log (in the source the throw escapes into an unhandled
  rejection and the queue object stays usable), and a ghost `startLog`
  records each execution the scheduler has started, in order.

* `timeout(func, ms, { rejectOnTimeout })` — a deadline wrapper.  One
  invocation of the returned `timeoutified` function is a small state
  machine `Batcave.TimeoutState` with the `overran` flag, the pending
  `setTimeout` timer, and the state of the promise the invocation
  returned; its two event sources (the timer callback, and the
  settlement of the promise returned by `func`) are the events of
  `Batcave.tStep`.
-/

namespace Batcave

/-- JS action identity: the callable object reference used as key of the
`promises` WeakMap and as element of the `running` Set. -/
abbrev Action := Nat

/-- The eventual outcome of executing one action: the value its promise
fulfills with, or the error it rejects/throws with. -/
inductive Outcome where
  | success (v : Nat)
  | failure (e : Nat)
deriving DecidableEq, Repr

/-- Observable state of a promise handed back to a caller. -/
inductive HandleState where
  | unsettled
  | resolved (v : Nat)
  | rejected (e : Nat)
deriving DecidableEq, Repr

/-- Settling a pending promise with an outcome (`resolve` on success,
`reject` on failure). -/
def ofOutcome : Outcome → HandleState
  | .success v => .resolved v
  | .failure e => .rejected e

/-- One occurrence of an action in the pending queue: `pid` is the ghost
push sequence number (which is also the id of the promise created by
that push), `act` the action's identity. -/
structure Task where
  pid : Nat
  act : Action
deriving DecidableEq, Repr

/-- One started execution: the dequeued task occurrence together with
the id of the promise whose `resolve`/`reject` were read from the
`promises` map when the scheduler started it. -/
structure Exec where
  task : Task
  binding : Nat
deriving DecidableEq, Repr

/-- The internal error thrown by `run` when the dequeued action has no
entry in the `promises` map. -/
inductive QErr where
  | missingPromiseCallbacks (a : Action)
deriving DecidableEq, Repr

/-- The closure state of one `queue(concurrencyLimit)` instance,
together with the states of all promises it has handed out and the
ghost `startLog`/`errors` logs. -/
structure QueueState where
  limit : Int
  pending : List Task
  promises : List (Action × Nat)
  running : List Action
  inflight : List Exec
  handles : List (Nat × HandleState)
  nextId : Nat
  startLog : List Exec
  errors : List QErr
deriving DecidableEq, Repr

/-- `promises.get(a)` (also `promises.has(a)` via `Option.isSome`). -/
def lookupProm : List (Action × Nat) → Action → Option Nat
  | [], _ => none
  | q :: ps, a => if q.1 = a then some q.2 else lookupProm ps a

/-- `promises.set(a, b)`: overwrite the entry for key `a` if present,
otherwise add one. -/
def setProm (ps : List (Action × Nat)) (a : Action) (b : Nat) : List (Action × Nat) :=
  if (lookupProm ps a).isSome then
    ps.map (fun p => if p.1 = a then (a, b) else p)
  else
    ps ++ [(a, b)]

/-- `promises.delete(a)`. -/
def delProm : List (Action × Nat) → Action → List (Action × Nat)
  | [], _ => []
  | q :: ps, a => if q.1 = a then delProm ps a else q :: delProm ps a

/-- `running.add(a)` (a JS Set: adding a present element is a no-op). -/
def addRunning (r : List Action) (a : Action) : List Action :=
  if a ∈ r then r else r ++ [a]

/-- `running.delete(a)`. -/
def delRunning : List Action → Action → List Action
  | [], _ => []
  | x :: xs, a => if x = a then delRunning xs a else x :: delRunning xs a

/-- Calling the `resolve`/`reject` callbacks of promise `b` with outcome
`o`: a promise settles only once, so only an unsettled entry for `b`
changes. -/
def settleHandle : List (Nat × HandleState) → Nat → Outcome → List (Nat × HandleState)
  | [], _, _ => []
  | q :: hs, b, o =>
    (if q.1 = b ∧ q.2 = HandleState.unsettled then (q.1, ofOutcome o) else q)
      :: settleHandle hs b o

/-- The state of the promise with id `b`. -/
def handleVal : List (Nat × HandleState) → Nat → Option HandleState
  | [], _ => none
  | q :: hs, b => if q.1 = b then some q.2 else handleVal hs b

/-- Remove one finished execution from the in-flight list. -/
def eraseExec : List Exec → Exec → List Exec
  | [], _ => []
  | x :: xs, e => if x = e then xs else x :: eraseExec xs e

/-- The source's `run`:

```
function run() {
    if (running.size >= concurrencyLimit) return;
    if (queue.length === 0) return;
    const action = queue.shift();
    if (!promises.has(action))
        throw new Error(`Missing promise callbacks for queue action ...`);
    const { resolve, reject } = promises.get(action);
    running.add(action);
    Promise.resolve().then(action).then(resolve, reject).finally(cleanup);
}
```

The started execution is appended to `inflight` (and to the ghost
`startLog`); the throw is recorded in the ghost `errors` log.  Note the
`queue.shift()` has already happened when the throw occurs.
`runDequeued` is the part of `run` after `queue.shift()` returned
action `t.act`, and `run` itself performs the two early returns and the
shift. -/
def runDequeued (s : QueueState) (t : Task) (rest : List Task) : QueueState :=
  match lookupProm s.promises t.act with
  | none =>
    { s with pending := rest
           , errors := s.errors ++ [QErr.missingPromiseCallbacks t.act] }
  | some b =>
    { s with pending := rest
           , running := addRunning s.running t.act
           , inflight := s.inflight ++ [⟨t, b⟩]
           , startLog := s.startLog ++ [⟨t, b⟩] }

def run (s : QueueState) : QueueState :=
  if s.limit ≤ (s.running.length : Int) then s
  else
    match s.pending with
    | [] => s
    | t :: rest => runDequeued s t rest

/-- The source's `push(action)`: create a fresh promise and record its
callbacks under the action's identity (overwriting a previous entry for
the same callable), append the action to the pending queue, and
schedule a `run` trigger (modelled as a separate trace event).  The
fresh promise has id `s.nextId`; that id is also used as the ghost push
sequence number of the new pending occurrence. -/
def push (s : QueueState) (a : Action) : QueueState :=
  { s with promises := setProm s.promises a s.nextId
         , pending := s.pending ++ [⟨s.nextId, a⟩]
         , handles := s.handles ++ [(s.nextId, HandleState.unsettled)]
         , nextId := s.nextId + 1 }

/-- A started execution finishes with outcome `o`: the settlement of the
promise captured at start time (`.then(resolve, reject)`), then the
`cleanup` callback (`running.delete(action); promises.delete(action);
run();`), as one atomic step.  An event naming an execution that is not
in flight is a no-op. -/
def settle (s : QueueState) (e : Exec) (o : Outcome) : QueueState :=
  if e ∈ s.inflight then
    run { s with inflight := eraseExec s.inflight e
               , handles := settleHandle s.handles e.binding o
               , running := delRunning s.running e.task.act
               , promises := delProm s.promises e.task.act }
  else s

/-- The source's `clear`: `queue.length = 0`. -/
def clear (s : QueueState) : QueueState :=
  { s with pending := [] }

/-- An event of a queue trace: a call to `push`, a microtask `run`
trigger, the completion of a started execution, or a call to `clear`. -/
inductive Event where
  | push (a : Action)
  | runTrigger
  | settle (e : Exec) (o : Outcome)
  | clear
deriving DecidableEq, Repr

/-- One trace event applied to the queue state. -/
def step (s : QueueState) : Event → QueueState
  | .push a => push s a
  | .runTrigger => run s
  | .settle e o => settle s e o
  | .clear => clear s

/-- The state of a freshly created `queue(k)`. -/
def mkQueue (k : Int) : QueueState :=
  { limit := k, pending := [], promises := [], running := [], inflight := []
  , handles := [], nextId := 0, startLog := [], errors := [] }

/-- Run a list of events from a given state. -/
def applyEvents (tr : List Event) (s : QueueState) : QueueState :=
  tr.foldl step s

/-- Run a list of events on a freshly created `queue(k)`. -/
def applyTrace (k : Int) (tr : List Event) : QueueState :=
  applyEvents tr (mkQueue k)

example :
    (applyTrace 2 [Event.push 7, Event.runTrigger]).running = [7] := by decide

example :
    (applyTrace 1 [Event.push 7, Event.push 8, Event.runTrigger, Event.runTrigger]).running
      = [7] := by decide

example :
    handleVal (applyTrace 1 [Event.push 7, Event.runTrigger,
      Event.settle ⟨⟨0, 7⟩, 0⟩ (Outcome.success 42)]).handles 0
      = some (HandleState.resolved 42) := by decide

/-! ## The deadline wrapper `timeout` -/

/-- A JS error value as the wrapper sees it: either an instance of
`TimeoutExpiredError` (with its `name` and `message` properties, the
only data the class constructor stores), or any other error raised by
the wrapped function itself. -/
inductive JsError where
  | timeoutExpired (nm : String) (message : String)
  | user (e : Nat)
deriving DecidableEq, Repr

/-- The `TimeoutExpiredError` constructor:

```
constructor(func, time) {
    const funcName = func.name || '<anonymous>';
    const msg = `Timeout-wrapped function ... took longer than ...ms to resolve`;
    super(msg);
    this.name = this.constructor.name;
}
```

`funcName` is a `String`, empty when the wrapped function is anonymous
(`func.name` is then the falsy `''`). -/
def TimeoutExpiredError (funcName : String) (time : Nat) : JsError :=
  JsError.timeoutExpired "TimeoutExpiredError"
    ("Timeout-wrapped function "
      ++ (if funcName = "" then "<anonymous>" else funcName)
      ++ " took longer than " ++ toString time ++ "ms to resolve")

/-- Outcome of the promise returned by the wrapped function. -/
inductive TOutcome where
  | success (v : Nat)
  | failure (e : JsError)
deriving DecidableEq, Repr

/-- State of the promise one `timeoutified(...)` call returned. -/
inductive TResult where
  | unsettled
  | resolved (v : Nat)
  | rejected (e : JsError)
deriving DecidableEq, Repr

/-- A promise settles only once: `resolve`/`reject` on an
already-settled promise is a no-op. -/
def trySettle (r : TResult) (v : TResult) : TResult :=
  match r with
  | .unsettled => v
  | _ => r

def ofTOutcome : TOutcome → TResult
  | .success v => .resolved v
  | .failure e => .rejected e

/-- The configuration one `timeout(func, ms, { rejectOnTimeout })` call
closed over: the wrapped function's `name`, the deadline, and the
`rejectOnTimeout` option. -/
structure TimeoutCfg where
  funcName : String
  ms : Nat
  rejectOnTimeout : Bool
deriving DecidableEq, Repr

/-- State of one invocation of the `timeoutified` function: the
`overran` flag, whether the `setTimeout` timer is still pending
(set and neither fired nor cleared), and the promise the invocation
returned. -/
structure TimeoutState where
  overran : Bool
  timerActive : Bool
  result : TResult
deriving DecidableEq, Repr

/-- State right after `timeoutified` was invoked: `overran = false`,
the deadline timer armed, the returned promise pending. -/
def tInit : TimeoutState :=
  { overran := false, timerActive := true, result := TResult.unsettled }

/-- An event of one invocation: the `setTimeout` callback firing, or
the promise returned by `func` settling. -/
inductive TEvent where
  | timerFire
  | funcSettle (o : TOutcome)
deriving DecidableEq, Repr

/-- One event applied to the invocation state, following

```
const kill = setTimeout(() => {
    if (rejectOnTimeout) reject(new TimeoutExpiredError(func, ms));
    overran = true;
}, ms);
func.apply(this, args)
    .finally(() => clearTimeout(kill))
    .then((ret) => !overran && resolve(ret), (err) => !overran && reject(err));
```

A cleared or already-fired timer cannot fire, so `timerFire` is a
no-op when the timer is not pending.  When `func`'s promise settles,
the `.finally` handler clears the timer, then the `.then` handlers
forward the outcome unless `overran` is set. -/
def tStep (cfg : TimeoutCfg) (s : TimeoutState) : TEvent → TimeoutState
  | .timerFire =>
    if s.timerActive then
      { s with
        result := if cfg.rejectOnTimeout then
            trySettle s.result (TResult.rejected (TimeoutExpiredError cfg.funcName cfg.ms))
          else s.result
        , overran := true
        , timerActive := false }
    else s
  | .funcSettle o =>
    if s.overran then { s with timerActive := false }
    else { s with timerActive := false, result := trySettle s.result (ofTOutcome o) }

/-- Run a list of timer/settlement events on an invocation state. -/
def tApply (cfg : TimeoutCfg) (tr : List TEvent) (s : TimeoutState) : TimeoutState :=
  tr.foldl (tStep cfg) s

example :
    (tApply ⟨"slowFn", 50, true⟩ [TEvent.timerFire, TEvent.funcSettle (TOutcome.success 1)]
      tInit).result
    = TResult.rejected (JsError.timeoutExpired "TimeoutExpiredError"
        "Timeout-wrapped function slowFn took longer than 50ms to resolve") := by decide

example :
    (tApply ⟨"", 50, false⟩ [TEvent.timerFire, TEvent.funcSettle (TOutcome.success 1)]
      tInit).result = TResult.unsettled := by decide

example :
    (tApply ⟨"fastFn", 50, true⟩ [TEvent.funcSettle (TOutcome.success 42), TEvent.timerFire]
      tInit).result = TResult.resolved 42 := by decide

/-! ## Invariant predicates and proof-harness definitions -/

/-- The concurrency bound invariant of claim C1. -/
def RunningBounded (s : QueueState) : Prop :=
  (s.running.length : Int) ≤ s.limit

/-- Invariant of a queue created with a non-positive concurrency limit
(claim C10): nothing ever starts and every handle stays pending. -/
def Dormant (s : QueueState) : Prop :=
  s.limit ≤ 0 ∧ s.running = [] ∧ s.inflight = [] ∧ s.startLog = [] ∧
    ∀ q ∈ s.handles, q.2 = HandleState.unsettled

/-- The inductive invariant behind FIFO start order: push sequence
numbers in the ghost `startLog` are strictly increasing, every started
pid is below every still-pending pid, pending pids are strictly
increasing, and all pids are below the push counter. -/
def FifoInv (s : QueueState) : Prop :=
  ((s.startLog.map (fun e => e.task.pid)).Pairwise (· < ·)) ∧
  (∀ e ∈ s.startLog, ∀ t ∈ s.pending, e.task.pid < t.pid) ∧
  ((s.pending.map (fun t => t.pid)).Pairwise (· < ·)) ∧
  (∀ t ∈ s.pending, t.pid < s.nextId) ∧
  (∀ e ∈ s.startLog, e.task.pid < s.nextId)

/-- Promise `b` is detached: no in-flight execution will settle it, and
no pending task would be started with it.  A detached promise can never
be settled by the queue again. -/
def DetachedBinding (b : Nat) (s : QueueState) : Prop :=
  (∀ e ∈ s.inflight, e.binding ≠ b) ∧
  (∀ t ∈ s.pending, lookupProm s.promises t.act ≠ some b) ∧
  b < s.nextId

/-- Push occurrence `b` is gone from the pending queue (and `b` is below
the push counter, so no later push reuses it): the scheduler can never
start that occurrence. -/
def FreshPid (b : Nat) (s : QueueState) : Prop :=
  (∀ t ∈ s.pending, t.pid ≠ b) ∧ b < s.nextId

/-- Pending tasks for actions `bs` pushed consecutively from counter
value `p`. -/
def mkTasks : Nat → List Action → List Task
  | _, [] => []
  | p, b :: bs => ⟨p, b⟩ :: mkTasks (p + 1) bs

/-- The `promises` entries those pushes create (distinct actions). -/
def mkProm : Nat → List Action → List (Action × Nat)
  | _, [] => []
  | p, b :: bs => (b, p) :: mkProm (p + 1) bs

/-- The pending handles those pushes create. -/
def mkUnsettled : Nat → List Action → List (Nat × HandleState)
  | _, [] => []
  | p, _ :: bs => (p, HandleState.unsettled) :: mkUnsettled (p + 1) bs

/-- The handles after every task settled with its own outcome. -/
def mkSettled (out : Action → Outcome) : Nat → List Action → List (Nat × HandleState)
  | _, [] => []
  | p, b :: bs => (p, ofOutcome (out b)) :: mkSettled out (p + 1) bs

/-- The executions the scheduler creates for those pushes, in start
order. -/
def mkExecs : Nat → List Action → List Exec
  | _, [] => []
  | p, b :: bs => ⟨⟨p, b⟩, p⟩ :: mkExecs (p + 1) bs

/-- Push a whole list of actions, in order. -/
def pushAll (s : QueueState) (as : List Action) : QueueState :=
  as.foldl push s

/-- One step of a canonical fair schedule: settle the oldest in-flight
execution with the outcome `out` assigns to its action, or trigger the
scheduler when nothing is in flight.  (Each settlement itself re-runs
the scheduler, as in the source's `cleanup`.) -/
def drainStep (out : Action → Outcome) (s : QueueState) : QueueState :=
  match s.inflight with
  | [] => run s
  | e :: _ => settle s e (out e.task.act)

/-- Iterate `drainStep` a given number of times. -/
def drain (out : Action → Outcome) : Nat → QueueState → QueueState
  | 0, s => s
  | n + 1, s => drain out n (drainStep out s)

/-- The queue of claim C9's scenario: the same callable pushed twice
into a fresh `queue(1)`. -/
def dupPushState (a : Action) : QueueState :=
  push (push (mkQueue 1) a) a

/-- The single execution the scheduler creates in that scenario: the
first occurrence of `a`, started with the promise of the second push. -/
def dupExec (a : Action) : Exec :=
  ⟨⟨0, a⟩, 1⟩

/-! ## Basic lemmas about the queue transition system -/

theorem applyEvents_inv (P : QueueState → Prop)
    (h : ∀ s e, P s → P (step s e)) :
    ∀ (tr : List Event) (s : QueueState), P s → P (applyEvents tr s) := by
  intro tr
  induction tr with
  | nil => exact fun s hs => hs
  | cons e tr ih => exact fun s hs => ih (step s e) (h s e hs)

theorem queueState_ext (x y : QueueState)
    (h1 : x.limit = y.limit) (h2 : x.pending = y.pending)
    (h3 : x.promises = y.promises) (h4 : x.running = y.running)
    (h5 : x.inflight = y.inflight) (h6 : x.handles = y.handles)
    (h7 : x.nextId = y.nextId) (h8 : x.startLog = y.startLog)
    (h9 : x.errors = y.errors) : x = y := by
  obtain ⟨l1, p1, pr1, r1, i1, ha1, n1, s1, e1⟩ := x
  obtain ⟨l2, p2, pr2, r2, i2, ha2, n2, s2, e2⟩ := y
  replace h1 : l1 = l2 := h1
  replace h2 : p1 = p2 := h2
  replace h3 : pr1 = pr2 := h3
  replace h4 : r1 = r2 := h4
  replace h5 : i1 = i2 := h5
  replace h6 : ha1 = ha2 := h6
  replace h7 : n1 = n2 := h7
  replace h8 : s1 = s2 := h8
  replace h9 : e1 = e2 := h9
  subst h1 h2 h3 h4 h5 h6 h7 h8 h9
  rfl

theorem run_eq_of_pending_nil (s : QueueState) (hp : s.pending = []) :
    run s = s := by
  unfold run
  rw [hp]
  split <;> rfl

theorem run_eq_start (s : QueueState) (t : Task) (rest : List Task)
    (hc : ¬ s.limit ≤ (s.running.length : Int)) (hp : s.pending = t :: rest) :
    run s = runDequeued s t rest := by
  unfold run
  rw [if_neg hc, hp]

theorem runDequeued_eq_error (s : QueueState) (t : Task) (rest : List Task)
    (hl : lookupProm s.promises t.act = none) :
    runDequeued s t rest
      = { s with pending := rest
               , errors := s.errors ++ [QErr.missingPromiseCallbacks t.act] } := by
  unfold runDequeued
  rw [hl]

theorem runDequeued_eq_some (s : QueueState) (t : Task) (rest : List Task)
    (b : Nat) (hl : lookupProm s.promises t.act = some b) :
    runDequeued s t rest
      = { s with pending := rest
               , running := addRunning s.running t.act
               , inflight := s.inflight ++ [⟨t, b⟩]
               , startLog := s.startLog ++ [⟨t, b⟩] } := by
  unfold runDequeued
  rw [hl]

theorem run_limit (s : QueueState) : (run s).limit = s.limit := by
  unfold run runDequeued; repeat' split
  all_goals rfl

theorem run_handles (s : QueueState) : (run s).handles = s.handles := by
  unfold run runDequeued; repeat' split
  all_goals rfl

theorem run_nextId (s : QueueState) : (run s).nextId = s.nextId := by
  unfold run runDequeued; repeat' split
  all_goals rfl

theorem settle_limit (s : QueueState) (e : Exec) (o : Outcome) :
    (settle s e o).limit = s.limit := by
  unfold settle; split
  · rw [run_limit]
  · rfl

theorem step_limit (s : QueueState) (e : Event) : (step s e).limit = s.limit := by
  cases e with
  | push a => rfl
  | runTrigger => exact run_limit s
  | settle e o => exact settle_limit s e o
  | clear => rfl

theorem run_eq_of_limit_le (s : QueueState)
    (h : s.limit ≤ (s.running.length : Int)) : run s = s := by
  unfold run; rw [if_pos h]

/-! ## Claim C1: the running set never exceeds the concurrency limit -/

theorem addRunning_length (r : List Action) (a : Action) :
    (addRunning r a).length ≤ r.length + 1 := by
  unfold addRunning; split
  · exact Nat.le_succ _
  · simp

theorem delRunning_length (r : List Action) (a : Action) :
    (delRunning r a).length ≤ r.length := by
  induction r with
  | nil => exact Nat.le_refl _
  | cons x xs ih =>
    by_cases hx : x = a
    · rw [delRunning, if_pos hx]
      exact Nat.le_succ_of_le ih
    · rw [delRunning, if_neg hx]
      exact Nat.succ_le_succ ih

/-- `run` only starts a task when `running.size < concurrencyLimit`. -/
theorem run_running_le (s : QueueState)
    (h : (s.running.length : Int) ≤ s.limit) :
    ((run s).running.length : Int) ≤ s.limit := by
  by_cases hc : s.limit ≤ (s.running.length : Int)
  · rw [run_eq_of_limit_le s hc]; exact h
  · cases hp : s.pending with
    | nil => rw [run_eq_of_pending_nil s hp]; exact h
    | cons t rest =>
      rw [run_eq_start s t rest hc hp]
      cases hl : lookupProm s.promises t.act with
      | none => rw [runDequeued_eq_error s t rest hl]; exact h
      | some b =>
        rw [runDequeued_eq_some s t rest b hl]
        show ((addRunning s.running t.act).length : Int) ≤ s.limit
        have h1 := addRunning_length s.running t.act
        omega

theorem step_running_bounded (s : QueueState) (e : Event)
    (h : RunningBounded s) : RunningBounded (step s e) := by
  cases e with
  | push a => exact h
  | runTrigger =>
    show ((run s).running.length : Int) ≤ (run s).limit
    rw [run_limit]
    exact run_running_le s h
  | settle e o =>
    show ((settle s e o).running.length : Int) ≤ (settle s e o).limit
    rw [settle_limit]
    unfold settle; split
    · rename_i hmem
      set s1 : QueueState :=
        { s with inflight := eraseExec s.inflight e
               , handles := settleHandle s.handles e.binding o
               , running := delRunning s.running e.task.act
               , promises := delProm s.promises e.task.act } with hs1
      have hb : RunningBounded s1 := by
        show ((delRunning s.running e.task.act).length : Int) ≤ s.limit
        have h2 : (delRunning s.running e.task.act).length ≤ s.running.length :=
          delRunning_length _ _
        have h3 := h
        unfold RunningBounded at h3
        omega
      have := run_running_le s1 hb
      simpa [hs1] using this
    · exact h
  | clear => exact h

/-- Claim C1: for a queue created with positive concurrency limit `k`,
along every trace of push, run-trigger, settlement, and clear events,
the `running` set never has more than `k` elements. -/
theorem queue_running_never_exceeds_limit (k : Int) (hk : 1 ≤ k)
    (tr : List Event) :
    ((applyTrace k tr).running.length : Int) ≤ k := by
  have hinv := applyEvents_inv
    (fun s => RunningBounded s ∧ s.limit = k)
    (fun s e h => ⟨step_running_bounded s e h.1, (step_limit s e).trans h.2⟩)
    tr (mkQueue k) ⟨by show ((0:Nat) : Int) ≤ k; omega, rfl⟩
  have h1 := hinv.1
  unfold RunningBounded at h1
  rw [hinv.2] at h1
  exact h1

theorem queue_running_never_exceeds_limit_witness :
    (((applyTrace 1 [Event.push 3, Event.push 4, Event.runTrigger,
      Event.runTrigger]).running.length : Int)) ≤ 1 :=
  queue_running_never_exceeds_limit 1 (by decide)
    [Event.push 3, Event.push 4, Event.runTrigger, Event.runTrigger]

/-! ## Claim C10: a non-positive concurrency limit accepts pushes but
never starts anything -/

theorem step_dormant (s : QueueState) (e : Event) (h : Dormant s) :
    Dormant (step s e) := by
  obtain ⟨h1, h2, h3, h4, h5⟩ := h
  cases e with
  | push a =>
    refine ⟨h1, h2, h3, h4, ?_⟩
    intro q hq
    show q.2 = HandleState.unsettled
    have hq2 : q ∈ s.handles ++ [(s.nextId, HandleState.unsettled)] := hq
    rcases List.mem_append.mp hq2 with hq3 | hq3
    · exact h5 q hq3
    · simp at hq3
      rw [hq3]
  | runTrigger =>
    have heq : run s = s := run_eq_of_limit_le s (by rw [h2]; simpa using h1)
    show Dormant (run s)
    rw [heq]
    exact ⟨h1, h2, h3, h4, h5⟩
  | settle e o =>
    have heq : settle s e o = s := by
      unfold settle; split
      · rename_i hmem
        rw [h3] at hmem
        simp at hmem
      · rfl
    show Dormant (settle s e o)
    rw [heq]
    exact ⟨h1, h2, h3, h4, h5⟩
  | clear => exact ⟨h1, h2, h3, h4, h5⟩

/-- Claim C10: `queue(k)` with `k ≤ 0` is accepted without validation:
`push` still returns a fresh pending handle and appends to the queue,
but along every trace no task ever starts, nothing is ever running or
in flight, and every handle stays unsettled. -/
theorem queue_nonpositive_limit_never_starts (k : Int) (hk : k ≤ 0)
    (tr : List Event) (a : Action) :
    (push (applyTrace k tr) a).pending
        = (applyTrace k tr).pending ++ [⟨(applyTrace k tr).nextId, a⟩] ∧
    (push (applyTrace k tr) a).handles
        = (applyTrace k tr).handles
            ++ [((applyTrace k tr).nextId, HandleState.unsettled)] ∧
    (applyTrace k tr).startLog = [] ∧
    (applyTrace k tr).inflight = [] ∧
    (applyTrace k tr).running = [] ∧
    (∀ q ∈ (applyTrace k tr).handles, q.2 = HandleState.unsettled) := by
  have hinv := applyEvents_inv Dormant step_dormant tr (mkQueue k)
    ⟨hk, rfl, rfl, rfl, by intro q hq; simp [mkQueue] at hq⟩
  exact ⟨rfl, rfl, hinv.2.2.2.1, hinv.2.2.1, hinv.2.1, hinv.2.2.2.2⟩

theorem queue_nonpositive_limit_never_starts_witness :
    (applyTrace 0 [Event.push 5, Event.runTrigger]).startLog = [] :=
  (queue_nonpositive_limit_never_starts 0 (by decide)
    [Event.push 5, Event.runTrigger] 9).2.2.1

/-! ## Claim C3: tasks start in strict FIFO push order -/

theorem run_fifo (s : QueueState) (h : FifoInv s) : FifoInv (run s) := by
  obtain ⟨h1, h2, h3, h4, h5⟩ := h
  by_cases hc : s.limit ≤ (s.running.length : Int)
  · rw [run_eq_of_limit_le s hc]; exact ⟨h1, h2, h3, h4, h5⟩
  · cases hp : s.pending with
    | nil => rw [run_eq_of_pending_nil s hp]; exact ⟨h1, h2, h3, h4, h5⟩
    | cons t rest =>
      rw [run_eq_start s t rest hc hp]
      rw [hp] at h2 h3 h4
      simp only [List.map_cons] at h3
      have h3head := (List.pairwise_cons.mp h3).1
      have h3tail := (List.pairwise_cons.mp h3).2
      have hmemt : t ∈ t :: rest := List.mem_cons_self t rest
      cases hl : lookupProm s.promises t.act with
      | none =>
        rw [runDequeued_eq_error s t rest hl]
        refine ⟨h1, ?_, h3tail, ?_, h5⟩
        · intro e he t2 ht2
          exact h2 e he t2 (List.mem_cons_of_mem t ht2)
        · intro t2 ht2
          exact h4 t2 (List.mem_cons_of_mem t ht2)
      | some b =>
        rw [runDequeued_eq_some s t rest b hl]
        refine ⟨?_, ?_, h3tail, ?_, ?_⟩
        · show ((s.startLog ++ [(⟨t, b⟩ : Exec)]).map (fun e => e.task.pid)).Pairwise (· < ·)
          simp only [List.map_append, List.map_cons, List.map_nil]
          rw [List.pairwise_append]
          refine ⟨h1, List.pairwise_singleton _ _, ?_⟩
          intro x hx y hy
          rcases List.mem_map.mp hx with ⟨e, he, rfl⟩
          have hy2 : y = t.pid := by simpa using hy
          rw [hy2]
          exact h2 e he t hmemt
        · intro e he t2 ht2
          have he2 : e ∈ s.startLog ++ [⟨t, b⟩] := he
          rcases List.mem_append.mp he2 with he3 | he3
          · exact h2 e he3 t2 (List.mem_cons_of_mem t ht2)
          · have : e = ⟨t, b⟩ := by simpa using he3
            rw [this]
            exact h3head t2.pid (List.mem_map_of_mem _ ht2)
        · intro t2 ht2
          exact h4 t2 (List.mem_cons_of_mem t ht2)
        · intro e he
          have he2 : e ∈ s.startLog ++ [⟨t, b⟩] := he
          rcases List.mem_append.mp he2 with he3 | he3
          · exact h5 e he3
          · have : e = ⟨t, b⟩ := by simpa using he3
            rw [this]
            exact h4 t hmemt

theorem step_fifo (s : QueueState) (e : Event) (h : FifoInv s) :
    FifoInv (step s e) := by
  obtain ⟨h1, h2, h3, h4, h5⟩ := h
  cases e with
  | push a =>
    refine ⟨h1, ?_, ?_, ?_, ?_⟩
    · intro e he t ht
      have ht2 : t ∈ s.pending ++ [⟨s.nextId, a⟩] := ht
      rcases List.mem_append.mp ht2 with ht3 | ht3
      · exact h2 e he t ht3
      · have : t = ⟨s.nextId, a⟩ := by simpa using ht3
        rw [this]
        exact h5 e he
    · show ((s.pending ++ [(⟨s.nextId, a⟩ : Task)]).map (fun t => t.pid)).Pairwise (· < ·)
      simp only [List.map_append, List.map_cons, List.map_nil]
      rw [List.pairwise_append]
      refine ⟨h3, List.pairwise_singleton _ _, ?_⟩
      intro x hx y hy
      rcases List.mem_map.mp hx with ⟨t, ht, rfl⟩
      have hy2 : y = s.nextId := by simpa using hy
      rw [hy2]
      exact h4 t ht
    · intro t ht
      have ht2 : t ∈ s.pending ++ [⟨s.nextId, a⟩] := ht
      show t.pid < s.nextId + 1
      rcases List.mem_append.mp ht2 with ht3 | ht3
      · exact Nat.lt_succ_of_lt (h4 t ht3)
      · have : t = ⟨s.nextId, a⟩ := by simpa using ht3
        rw [this]
        exact Nat.lt_succ_self _
    · intro e he
      show e.task.pid < s.nextId + 1
      exact Nat.lt_succ_of_lt (h5 e he)
  | runTrigger => exact run_fifo s ⟨h1, h2, h3, h4, h5⟩
  | settle e o =>
    show FifoInv (settle s e o)
    unfold settle
    split
    · exact run_fifo _ ⟨h1, h2, h3, h4, h5⟩
    · exact ⟨h1, h2, h3, h4, h5⟩
  | clear =>
    refine ⟨h1, ?_, List.Pairwise.nil, ?_, h5⟩
    · intro e he t ht
      exact absurd ht (List.not_mem_nil t)
    · intro t ht
      exact absurd ht (List.not_mem_nil t)

/-- Claim C3: along every trace, the scheduler starts tasks in strictly
increasing push order — the ghost start log's push sequence numbers are
pairwise increasing, whatever the interleaving of settlements — and a
`push` appends its task at the tail with the next push sequence
number. -/
theorem queue_fifo_start_order (k : Int) (tr : List Event) :
    (((applyTrace k tr).startLog.map (fun e => e.task.pid)).Pairwise (· < ·)) ∧
    (∀ (s : QueueState) (a : Action),
      (push s a).pending = s.pending ++ [⟨s.nextId, a⟩] ∧
      (push s a).nextId = s.nextId + 1) := by
  constructor
  · have hinit : FifoInv (mkQueue k) := by
      refine ⟨List.Pairwise.nil, ?_, List.Pairwise.nil, ?_, ?_⟩
      · intro e he
        exact absurd he (List.not_mem_nil e)
      · intro t ht
        exact absurd ht (List.not_mem_nil t)
      · intro e he
        exact absurd he (List.not_mem_nil e)
    exact (applyEvents_inv FifoInv step_fifo tr (mkQueue k) hinit).1
  · exact fun s a => ⟨rfl, rfl⟩

/-! ## Claims about the deadline wrapper -/

theorem trySettle_of_settled (r v : TResult) (h : r ≠ TResult.unsettled) :
    trySettle r v = r := by
  cases r with
  | unsettled => exact absurd rfl h
  | resolved w => rfl
  | rejected e => rfl

/-- Claim C4: if the wrapped function's result settles while the
invocation state is still initial (before the deadline fired), the
timer is cancelled and the outcome is forwarded verbatim; a settled
wrapped call is never settled again by any later event; and once the
deadline has fired (`overran` set), a late settlement of the underlying
result is discarded, leaving the wrapped call's promise untouched. -/
theorem timeout_forwards_once_and_discards_late (cfg : TimeoutCfg)
    (o olate : TOutcome) (e : TEvent) (s s2 : TimeoutState)
    (hs : s.result ≠ TResult.unsettled) (hs2 : s2.overran = true) :
    (tStep cfg tInit (TEvent.funcSettle o)).result = ofTOutcome o ∧
    (tStep cfg tInit (TEvent.funcSettle o)).timerActive = false ∧
    (tStep cfg s e).result = s.result ∧
    (tStep cfg s2 (TEvent.funcSettle olate)).result = s2.result ∧
    (tStep cfg tInit TEvent.timerFire).overran = true := by
  refine ⟨?_, ?_, ?_, ?_, ?_⟩
  · simp [tStep, tInit, trySettle]
  · simp [tStep, tInit]
  · cases e with
    | timerFire =>
      cases hA : s.timerActive
      · simp [tStep, hA]
      · simp [tStep, hA, trySettle_of_settled _ _ hs]
    | funcSettle o2 =>
      cases hB : s.overran
      · simp [tStep, hB, trySettle_of_settled _ _ hs]
      · simp [tStep, hB]
  · simp [tStep, hs2]
  · simp [tStep, tInit]

theorem timeout_forwards_once_and_discards_late_witness :
    (tStep ⟨"fastFn", 50, true⟩ tInit (TEvent.funcSettle (TOutcome.success 42))).result
      = ofTOutcome (TOutcome.success 42) :=
  (timeout_forwards_once_and_discards_late ⟨"fastFn", 50, true⟩
    (TOutcome.success 42) (TOutcome.success 7) TEvent.timerFire
    ⟨false, false, TResult.resolved 0⟩ ⟨true, false, TResult.unsettled⟩
    (by decide) (by decide)).1

/-- Claim C5: when the deadline fires first and `rejectOnTimeout` is
true, the wrapped call rejects with a `TimeoutExpiredError` whose
`name` is `"TimeoutExpiredError"` and whose message carries the wrapped
function's name (with the `<anonymous>` marker when `func.name` is the
empty string) and the configured timeout value; and the non-timeout
path forwards the underlying outcome verbatim, so the wrapper
constructs this error kind only on its timeout path. -/
theorem timeout_error_carries_name_and_ms (cfg : TimeoutCfg)
    (hc : cfg.rejectOnTimeout = true) (o : TOutcome) (s : TimeoutState)
    (h1 : s.overran = false) (h2 : s.result = TResult.unsettled) :
    (tStep cfg tInit TEvent.timerFire).result
      = TResult.rejected (JsError.timeoutExpired "TimeoutExpiredError"
          ("Timeout-wrapped function "
            ++ (if cfg.funcName = "" then "<anonymous>" else cfg.funcName)
            ++ " took longer than " ++ toString cfg.ms ++ "ms to resolve")) ∧
    (tStep cfg s (TEvent.funcSettle o)).result = ofTOutcome o := by
  constructor
  · simp [tStep, tInit, hc, trySettle, TimeoutExpiredError]
  · simp [tStep, h1, h2, trySettle]

theorem timeout_error_carries_name_and_ms_witness :
    (tStep ⟨"", 50, true⟩ tInit TEvent.timerFire).result
      = TResult.rejected (JsError.timeoutExpired "TimeoutExpiredError"
          ("Timeout-wrapped function "
            ++ (if ("" : String) = "" then "<anonymous>" else "")
            ++ " took longer than " ++ toString (50 : Nat) ++ "ms to resolve")) :=
  (timeout_error_carries_name_and_ms ⟨"", 50, true⟩ rfl
    (TOutcome.success 0) tInit rfl rfl).1

/-- Claim C6: with `rejectOnTimeout = false`, once the deadline fires on
a still-initial invocation the wrapped call's promise stays unsettled
along every continuation, including ones where the underlying function
later settles. -/
theorem timeout_no_reject_leaves_unsettled (cfg : TimeoutCfg)
    (hc : cfg.rejectOnTimeout = false) (tr : List TEvent) :
    (tApply cfg tr (tStep cfg tInit TEvent.timerFire)).result
      = TResult.unsettled := by
  suffices h : ∀ (tr : List TEvent) (s : TimeoutState), s.overran = true →
      s.result = TResult.unsettled →
      (tApply cfg tr s).result = TResult.unsettled by
    refine h tr _ ?_ ?_
    · simp [tStep, tInit]
    · simp [tStep, tInit, hc]
  intro tr
  induction tr with
  | nil => exact fun s _ h2 => h2
  | cons e tr ih =>
    intro s h1 h2
    have hstep : (tStep cfg s e).overran = true ∧
        (tStep cfg s e).result = TResult.unsettled := by
      cases e with
      | timerFire =>
        cases hA : s.timerActive
        · simp [tStep, hA, h1, h2]
        · simp [tStep, hA, hc, h2]
      | funcSettle o =>
        simp [tStep, h1, h2]
    exact ih (tStep cfg s e) hstep.1 hstep.2

theorem timeout_no_reject_leaves_unsettled_witness :
    (tApply ⟨"slowFn", 50, false⟩ [TEvent.funcSettle (TOutcome.success 3)]
      (tStep ⟨"slowFn", 50, false⟩ tInit TEvent.timerFire)).result
      = TResult.unsettled :=
  timeout_no_reject_leaves_unsettled ⟨"slowFn", 50, false⟩ rfl
    [TEvent.funcSettle (TOutcome.success 3)]

/-- Claim C8: whenever the underlying function's result settles, the
`.finally` handler clears the deadline timer, on the success and the
failure path alike; and a timer that is no longer pending never becomes
pending again on any later event. -/
theorem timeout_timer_cleared_on_settle (cfg : TimeoutCfg)
    (s s2 : TimeoutState) (o : TOutcome) (e : TEvent)
    (h : s2.timerActive = false) :
    (tStep cfg s (TEvent.funcSettle o)).timerActive = false ∧
    (tStep cfg s2 e).timerActive = false := by
  constructor
  · cases hB : s.overran <;> simp [tStep, hB]
  · cases e with
    | timerFire => simp [tStep, h]
    | funcSettle o2 => cases hB : s2.overran <;> simp [tStep, hB]

/-! ## Lemmas about the promise map and the handle table -/

theorem lookupProm_overwrite (ps : List (Action × Nat)) (a x : Action) (b : Nat) :
    lookupProm (ps.map (fun p => if p.1 = a then (a, b) else p)) x
      = if x = a then (if (lookupProm ps a).isSome then some b else none)
        else lookupProm ps x := by
  induction ps with
  | nil => simp [lookupProm]
  | cons q ps ih =>
    obtain ⟨q1, q2⟩ := q
    by_cases hq : q1 = a
    · subst hq
      by_cases hx : x = q1
      · subst hx
        simp [lookupProm]
      · simp [lookupProm, hx, Ne.symm hx, ih]
    · by_cases hx : x = a
      · subst hx
        simp [lookupProm, hq, ih]
      · simp [lookupProm, hq, hx, ih]

theorem lookupProm_append_some (ps qs : List (Action × Nat)) (x : Action)
    (v : Nat) (h : lookupProm ps x = some v) :
    lookupProm (ps ++ qs) x = some v := by
  induction ps with
  | nil => simp [lookupProm] at h
  | cons q ps ih =>
    by_cases hq : q.1 = x
    · simp only [lookupProm, List.cons_append] at h ⊢
      rw [if_pos hq] at h ⊢
      exact h
    · simp only [lookupProm, List.cons_append] at h ⊢
      rw [if_neg hq] at h ⊢
      exact ih h

theorem lookupProm_append_none (ps qs : List (Action × Nat)) (x : Action)
    (h : lookupProm ps x = none) :
    lookupProm (ps ++ qs) x = lookupProm qs x := by
  induction ps with
  | nil => rfl
  | cons q ps ih =>
    by_cases hq : q.1 = x
    · simp only [lookupProm] at h
      rw [if_pos hq] at h
      exact Option.noConfusion h
    · simp only [lookupProm, List.cons_append] at h ⊢
      rw [if_neg hq] at h ⊢
      exact ih h

theorem lookupProm_setProm (ps : List (Action × Nat)) (a x : Action) (b : Nat) :
    lookupProm (setProm ps a b) x = if x = a then some b else lookupProm ps x := by
  unfold setProm
  by_cases hhas : (lookupProm ps a).isSome
  · rw [if_pos hhas, lookupProm_overwrite]
    by_cases hx : x = a
    · rw [if_pos hx, if_pos hx, if_pos hhas]
    · rw [if_neg hx, if_neg hx]
  · rw [if_neg hhas]
    have hnone : lookupProm ps a = none := by
      cases hl : lookupProm ps a
      · rfl
      · rw [hl] at hhas; simp at hhas
    by_cases hx : x = a
    · subst hx
      rw [lookupProm_append_none ps _ x hnone, if_pos rfl]
      simp [lookupProm]
    · rw [if_neg hx]
      cases hl : lookupProm ps x with
      | none =>
        rw [lookupProm_append_none ps _ x hl]
        simp [lookupProm, Ne.symm hx]
      | some v => exact lookupProm_append_some ps _ x v hl

theorem lookupProm_delProm (ps : List (Action × Nat)) (a x : Action) :
    lookupProm (delProm ps a) x = if x = a then none else lookupProm ps x := by
  induction ps with
  | nil => simp [delProm, lookupProm]
  | cons q ps ih =>
    obtain ⟨q1, q2⟩ := q
    by_cases hq : q1 = a
    · subst hq
      by_cases hx : x = q1
      · subst hx
        simp [delProm, lookupProm, ih]
      · simp [delProm, lookupProm, Ne.symm hx, hx, ih]
    · by_cases hx : x = a
      · subst hx
        simp [delProm, lookupProm, hq, Ne.symm hq, ih]
      · simp [delProm, lookupProm, hq, hx, ih]

theorem handleVal_append_some (hs1 hs2 : List (Nat × HandleState)) (x : Nat)
    (v : HandleState) (h : handleVal hs1 x = some v) :
    handleVal (hs1 ++ hs2) x = some v := by
  induction hs1 with
  | nil => simp [handleVal] at h
  | cons q hs ih =>
    by_cases hq : q.1 = x
    · simp only [handleVal, List.cons_append] at h ⊢
      rw [if_pos hq] at h ⊢
      exact h
    · simp only [handleVal, List.cons_append] at h ⊢
      rw [if_neg hq] at h ⊢
      exact ih h

theorem handleVal_append_none (hs1 hs2 : List (Nat × HandleState)) (x : Nat)
    (h : handleVal hs1 x = none) :
    handleVal (hs1 ++ hs2) x = handleVal hs2 x := by
  induction hs1 with
  | nil => rfl
  | cons q hs ih =>
    by_cases hq : q.1 = x
    · simp only [handleVal] at h
      rw [if_pos hq] at h
      exact Option.noConfusion h
    · simp only [handleVal, List.cons_append] at h ⊢
      rw [if_neg hq] at h ⊢
      exact ih h

theorem handleVal_settleHandle (hs : List (Nat × HandleState)) (b : Nat)
    (o : Outcome) (x : Nat) :
    handleVal (settleHandle hs b o) x
      = (handleVal hs x).map
          (fun v => if x = b ∧ v = HandleState.unsettled then ofOutcome o else v) := by
  induction hs with
  | nil => simp [settleHandle, handleVal]
  | cons q hs ih =>
    obtain ⟨q1, q2⟩ := q
    show handleVal ((if q1 = b ∧ q2 = HandleState.unsettled
        then (q1, ofOutcome o) else (q1, q2)) :: settleHandle hs b o) x = _
    by_cases hc : q1 = b ∧ q2 = HandleState.unsettled
    · obtain ⟨hc1, hc2⟩ := hc
      subst hc1
      subst hc2
      by_cases hx : q1 = x
      · subst hx
        simp [handleVal]
      · simp [handleVal, hx, Ne.symm hx, ih]
    · rw [if_neg hc]
      by_cases hx : q1 = x
      · subst hx
        simp only [handleVal, if_pos rfl]
        have hc2 : ¬ (q1 = b ∧ q2 = HandleState.unsettled) := hc
        simp [hc2]
      · simp [handleVal, hx, Ne.symm hx, ih]

theorem mem_eraseExec (l : List Exec) (e x : Exec) (h : x ∈ eraseExec l e) :
    x ∈ l := by
  induction l with
  | nil => simp [eraseExec] at h
  | cons y ys ih =>
    by_cases hy : y = e
    · rw [eraseExec, if_pos hy] at h
      exact List.mem_cons_of_mem y h
    · rw [eraseExec, if_neg hy] at h
      rcases List.mem_cons.mp h with h2 | h2
      · rw [h2]; exact List.mem_cons_self y ys
      · exact List.mem_cons_of_mem y (ih h2)

/-! ## A detached promise is never settled; a dequeued occurrence never
restarts -/

theorem detached_run (b : Nat) (s : QueueState) (h : DetachedBinding b s) :
    DetachedBinding b (run s) := by
  obtain ⟨h1, h2, h3⟩ := h
  by_cases hc : s.limit ≤ (s.running.length : Int)
  · rw [run_eq_of_limit_le s hc]; exact ⟨h1, h2, h3⟩
  · cases hp : s.pending with
    | nil => rw [run_eq_of_pending_nil s hp]; exact ⟨h1, h2, h3⟩
    | cons t rest =>
      rw [run_eq_start s t rest hc hp]
      rw [hp] at h2
      cases hl : lookupProm s.promises t.act with
      | none =>
        rw [runDequeued_eq_error s t rest hl]
        exact ⟨h1, fun t2 ht2 => h2 t2 (List.mem_cons_of_mem t ht2), h3⟩
      | some b2 =>
        rw [runDequeued_eq_some s t rest b2 hl]
        refine ⟨?_, fun t2 ht2 => h2 t2 (List.mem_cons_of_mem t ht2), h3⟩
        intro e he
        have he2 : e ∈ s.inflight ++ [(⟨t, b2⟩ : Exec)] := he
        rcases List.mem_append.mp he2 with he3 | he3
        · exact h1 e he3
        · have he4 : e = ⟨t, b2⟩ := by simpa using he3
          rw [he4]
          intro hbb
          have hbb2 : b2 = b := hbb
          apply h2 t (List.mem_cons_self t rest)
          rw [hl, hbb2]

theorem detached_step (b : Nat) (s : QueueState) (e : Event)
    (h : DetachedBinding b s) :
    DetachedBinding b (step s e) ∧
      handleVal (step s e).handles b = handleVal s.handles b := by
  obtain ⟨h1, h2, h3⟩ := h
  cases e with
  | push a =>
    constructor
    · refine ⟨h1, ?_, Nat.lt_succ_of_lt h3⟩
      intro t ht
      have ht2 : t ∈ s.pending ++ [(⟨s.nextId, a⟩ : Task)] := ht
      show lookupProm (setProm s.promises a s.nextId) t.act ≠ some b
      rw [lookupProm_setProm]
      by_cases hta : t.act = a
      · rw [if_pos hta]
        intro hcon
        have : s.nextId = b := by simpa using hcon
        omega
      · rw [if_neg hta]
        rcases List.mem_append.mp ht2 with ht3 | ht3
        · exact h2 t ht3
        · have : t = ⟨s.nextId, a⟩ := by simpa using ht3
          rw [this] at hta
          exact absurd rfl hta
    · show handleVal (s.handles ++ [(s.nextId, HandleState.unsettled)]) b
        = handleVal s.handles b
      cases hv : handleVal s.handles b with
      | some v => exact handleVal_append_some _ _ _ _ hv
      | none =>
        rw [handleVal_append_none _ _ _ hv]
        have hne : s.nextId ≠ b := by omega
        simp [handleVal, hne]
  | runTrigger =>
    refine ⟨detached_run b s ⟨h1, h2, h3⟩, ?_⟩
    show handleVal (run s).handles b = handleVal s.handles b
    rw [run_handles]
  | settle e2 o =>
    show DetachedBinding b (settle s e2 o) ∧
      handleVal (settle s e2 o).handles b = handleVal s.handles b
    unfold settle
    split
    · rename_i hmem
      have hne : e2.binding ≠ b := h1 e2 hmem
      have hdet1 : DetachedBinding b
          { s with inflight := eraseExec s.inflight e2
                 , handles := settleHandle s.handles e2.binding o
                 , running := delRunning s.running e2.task.act
                 , promises := delProm s.promises e2.task.act } := by
        refine ⟨?_, ?_, h3⟩
        · intro e3 he3
          exact h1 e3 (mem_eraseExec s.inflight e2 e3 he3)
        · intro t ht
          show lookupProm (delProm s.promises e2.task.act) t.act ≠ some b
          rw [lookupProm_delProm]
          by_cases hta : t.act = e2.task.act
          · rw [if_pos hta]
            exact fun hcon => Option.noConfusion hcon
          · rw [if_neg hta]
            exact h2 t ht
      constructor
      · exact detached_run b _ hdet1
      · rw [run_handles]
        show handleVal (settleHandle s.handles e2.binding o) b = handleVal s.handles b
        rw [handleVal_settleHandle]
        cases hv : handleVal s.handles b with
        | none => rfl
        | some v => simp [Ne.symm hne]
    · exact ⟨⟨h1, h2, h3⟩, rfl⟩
  | clear =>
    refine ⟨⟨h1, ?_, h3⟩, rfl⟩
    intro t ht
    exact absurd ht (List.not_mem_nil t)

theorem detached_trace (b : Nat) (tr : List Event) :
    ∀ (s : QueueState), DetachedBinding b s →
      handleVal (applyEvents tr s).handles b = handleVal s.handles b := by
  induction tr with
  | nil => exact fun s _ => rfl
  | cons e tr ih =>
    intro s hdet
    show handleVal (applyEvents tr (step s e)).handles b = handleVal s.handles b
    rw [ih (step s e) (detached_step b s e hdet).1]
    exact (detached_step b s e hdet).2

theorem freshPid_run (b : Nat) (s : QueueState) (h : FreshPid b s) :
    FreshPid b (run s) ∧
      ((∀ e2 ∈ s.startLog, e2.task.pid ≠ b) →
        ∀ e2 ∈ (run s).startLog, e2.task.pid ≠ b) := by
  obtain ⟨h1, h2⟩ := h
  by_cases hc : s.limit ≤ (s.running.length : Int)
  · rw [run_eq_of_limit_le s hc]; exact ⟨⟨h1, h2⟩, fun hs => hs⟩
  · cases hp : s.pending with
    | nil => rw [run_eq_of_pending_nil s hp]; exact ⟨⟨h1, h2⟩, fun hs => hs⟩
    | cons t rest =>
      rw [run_eq_start s t rest hc hp]
      rw [hp] at h1
      cases hl : lookupProm s.promises t.act with
      | none =>
        rw [runDequeued_eq_error s t rest hl]
        exact ⟨⟨fun t2 ht2 => h1 t2 (List.mem_cons_of_mem t ht2), h2⟩, fun hs => hs⟩
      | some b2 =>
        rw [runDequeued_eq_some s t rest b2 hl]
        refine ⟨⟨fun t2 ht2 => h1 t2 (List.mem_cons_of_mem t ht2), h2⟩, ?_⟩
        intro hs e2 he2
        have he3 : e2 ∈ s.startLog ++ [(⟨t, b2⟩ : Exec)] := he2
        rcases List.mem_append.mp he3 with he4 | he4
        · exact hs e2 he4
        · have : e2 = ⟨t, b2⟩ := by simpa using he4
          rw [this]
          exact h1 t (List.mem_cons_self t rest)

theorem freshPid_step (b : Nat) (s : QueueState) (e : Event)
    (h : FreshPid b s) :
    FreshPid b (step s e) ∧
      ((∀ e2 ∈ s.startLog, e2.task.pid ≠ b) →
        ∀ e2 ∈ (step s e).startLog, e2.task.pid ≠ b) := by
  obtain ⟨h1, h2⟩ := h
  cases e with
  | push a =>
    refine ⟨⟨?_, Nat.lt_succ_of_lt h2⟩, fun hs => hs⟩
    intro t ht
    have ht2 : t ∈ s.pending ++ [(⟨s.nextId, a⟩ : Task)] := ht
    rcases List.mem_append.mp ht2 with ht3 | ht3
    · exact h1 t ht3
    · have : t = ⟨s.nextId, a⟩ := by simpa using ht3
      rw [this]
      show s.nextId ≠ b
      omega
  | runTrigger => exact freshPid_run b s ⟨h1, h2⟩
  | settle e2 o =>
    show FreshPid b (settle s e2 o) ∧
      ((∀ e3 ∈ s.startLog, e3.task.pid ≠ b) →
        ∀ e3 ∈ (settle s e2 o).startLog, e3.task.pid ≠ b)
    unfold settle
    split
    · exact freshPid_run b
        { s with inflight := eraseExec s.inflight e2
               , handles := settleHandle s.handles e2.binding o
               , running := delRunning s.running e2.task.act
               , promises := delProm s.promises e2.task.act }
        ⟨h1, h2⟩
    · exact ⟨⟨h1, h2⟩, fun hs => hs⟩
  | clear =>
    refine ⟨⟨?_, h2⟩, fun hs => hs⟩
    intro t ht
    exact absurd ht (List.not_mem_nil t)

theorem freshPid_trace (b : Nat) (tr : List Event) :
    ∀ (s : QueueState), FreshPid b s →
      (∀ e2 ∈ s.startLog, e2.task.pid ≠ b) →
      ∀ e2 ∈ (applyEvents tr s).startLog, e2.task.pid ≠ b := by
  induction tr with
  | nil => exact fun s _ hs => hs
  | cons e tr ih =>
    intro s hf hs
    exact ih (step s e) (freshPid_step b s e hf).1 ((freshPid_step b s e hf).2 hs)

theorem timeout_timer_cleared_on_settle_witness :
    (tStep ⟨"f", 5, true⟩ tInit
      (TEvent.funcSettle (TOutcome.failure (JsError.user 1)))).timerActive = false :=
  (timeout_timer_cleared_on_settle ⟨"f", 5, true⟩ tInit
    ⟨false, false, TResult.unsettled⟩ (TOutcome.failure (JsError.user 1))
    TEvent.timerFire rfl).1

/-! ## Claim C7: `clear()` discards pending tasks and nothing else -/

/-- Claim C7: `clear()` empties the pending queue and changes no other
component of the queue state; an already-running execution still
settles its handle exactly as before the clear; a pending task removed
by the clear (its promise not captured by any in-flight execution, its
occurrence never started) never starts along any continuation and its
handle is never settled by the queue; and a task pushed after `clear()`
is started normally by the next scheduler run. -/
theorem clear_discards_pending_only (s : QueueState) (e : Exec) (o : Outcome)
    (d : Action) (t : Task) (tr : List Event)
    (he : e ∈ s.inflight)
    (ht : t ∈ s.pending)
    (hbind : ∀ e2 ∈ s.inflight, e2.binding ≠ t.pid)
    (hpid : t.pid < s.nextId)
    (hstart : ∀ e2 ∈ s.startLog, e2.task.pid ≠ t.pid)
    (hroom : ¬ s.limit ≤ (s.running.length : Int)) :
    (clear s).pending = [] ∧
    (clear s).running = s.running ∧
    (clear s).inflight = s.inflight ∧
    (clear s).handles = s.handles ∧
    (clear s).promises = s.promises ∧
    (clear s).startLog = s.startLog ∧
    (clear s).nextId = s.nextId ∧
    (clear s).errors = s.errors ∧
    (clear s).limit = s.limit ∧
    (settle (clear s) e o).handles = settleHandle s.handles e.binding o ∧
    handleVal (applyEvents tr (clear s)).handles t.pid
      = handleVal s.handles t.pid ∧
    (∀ e2 ∈ (applyEvents tr (clear s)).startLog, e2.task.pid ≠ t.pid) ∧
    run (push (clear s) d)
      = { push (clear s) d with
            pending := []
          , running := addRunning s.running d
          , inflight := s.inflight ++ [⟨⟨s.nextId, d⟩, s.nextId⟩]
          , startLog := s.startLog ++ [⟨⟨s.nextId, d⟩, s.nextId⟩] } := by
  have hdet : DetachedBinding t.pid (clear s) := by
    refine ⟨hbind, ?_, hpid⟩
    intro t2 ht2
    exact absurd ht2 (List.not_mem_nil t2)
  have hfresh : FreshPid t.pid (clear s) := by
    refine ⟨?_, hpid⟩
    intro t2 ht2
    exact absurd ht2 (List.not_mem_nil t2)
  refine ⟨rfl, rfl, rfl, rfl, rfl, rfl, rfl, rfl, rfl, ?_, ?_, ?_, ?_⟩
  · show (settle (clear s) e o).handles = settleHandle s.handles e.binding o
    unfold settle
    rw [if_pos (show e ∈ (clear s).inflight from he)]
    rw [run_handles]
    rfl
  · exact detached_trace t.pid tr (clear s) hdet
  · exact freshPid_trace t.pid tr (clear s) hfresh hstart
  · have hc2 : ¬ (push (clear s) d).limit
        ≤ ((push (clear s) d).running.length : Int) := hroom
    have hp2 : (push (clear s) d).pending = ⟨s.nextId, d⟩ :: [] := rfl
    have hl2 : lookupProm (push (clear s) d).promises
        (⟨s.nextId, d⟩ : Task).act = some s.nextId := by
      show lookupProm (setProm s.promises d s.nextId) d = some s.nextId
      rw [lookupProm_setProm, if_pos rfl]
    rw [run_eq_start _ ⟨s.nextId, d⟩ [] hc2 hp2,
        runDequeued_eq_some _ ⟨s.nextId, d⟩ [] s.nextId hl2]
    rfl

theorem clear_discards_pending_only_witness :
    (clear (applyTrace 2 [Event.push 10, Event.push 11, Event.runTrigger])).pending
      = [] :=
  (clear_discards_pending_only
    (applyTrace 2 [Event.push 10, Event.push 11, Event.runTrigger])
    ⟨⟨0, 10⟩, 0⟩ (Outcome.success 1) 12 ⟨1, 11⟩
    [Event.runTrigger, Event.settle ⟨⟨0, 10⟩, 0⟩ (Outcome.success 1)]
    (by decide) (by decide) (by decide) (by decide) (by decide) (by decide)).1

/-! ## Claim C9: pushing the same callable twice overwrites its binding -/

theorem dupPushState_eq (a : Action) :
    dupPushState a
      = { limit := 1, pending := [⟨0, a⟩, ⟨1, a⟩], promises := [(a, 1)]
        , running := [], inflight := []
        , handles := [(0, HandleState.unsettled), (1, HandleState.unsettled)]
        , nextId := 2, startLog := [], errors := [] } := by
  show push (push (mkQueue 1) a) a = _
  have h1 : push (mkQueue 1) a
      = { limit := 1, pending := [⟨0, a⟩], promises := [(a, 0)]
        , running := [], inflight := []
        , handles := [(0, HandleState.unsettled)]
        , nextId := 1, startLog := [], errors := [] } := by
    unfold push mkQueue setProm
    simp [lookupProm]
  rw [h1]
  unfold push setProm
  simp [lookupProm]

theorem dupRun_eq (a : Action) :
    run (dupPushState a)
      = { limit := 1, pending := [⟨1, a⟩], promises := [(a, 1)]
        , running := [a], inflight := [dupExec a]
        , handles := [(0, HandleState.unsettled), (1, HandleState.unsettled)]
        , nextId := 2, startLog := [dupExec a], errors := [] } := by
  rw [dupPushState_eq]
  rw [run_eq_start _ ⟨0, a⟩ [⟨1, a⟩]
    (by show ¬ (1 : Int) ≤ ((0 : Nat) : Int); decide) rfl]
  rw [runDequeued_eq_some _ ⟨0, a⟩ [⟨1, a⟩] 1 (by simp [lookupProm])]
  simp [dupExec, addRunning]

theorem dupSettle_eq (a : Action) (o : Outcome) :
    settle (run (dupPushState a)) (dupExec a) o
      = { limit := 1, pending := [], promises := []
        , running := [], inflight := []
        , handles := [(0, HandleState.unsettled), (1, ofOutcome o)]
        , nextId := 2, startLog := [dupExec a]
        , errors := [QErr.missingPromiseCallbacks a] } := by
  rw [dupRun_eq]
  unfold settle
  rw [if_pos (List.mem_singleton.mpr rfl)]
  show run
    { limit := 1, pending := [⟨1, a⟩]
    , promises := delProm [(a, 1)] (dupExec a).task.act
    , running := delRunning [a] (dupExec a).task.act
    , inflight := eraseExec [dupExec a] (dupExec a)
    , handles := settleHandle [(0, HandleState.unsettled), (1, HandleState.unsettled)]
        (dupExec a).binding o
    , nextId := 2, startLog := [dupExec a], errors := [] } = _
  have hfields :
      ({ limit := 1, pending := [⟨1, a⟩]
       , promises := delProm [(a, 1)] (dupExec a).task.act
       , running := delRunning [a] (dupExec a).task.act
       , inflight := eraseExec [dupExec a] (dupExec a)
       , handles := settleHandle [(0, HandleState.unsettled), (1, HandleState.unsettled)]
           (dupExec a).binding o
       , nextId := 2, startLog := [dupExec a], errors := [] } : QueueState)
      = { limit := 1, pending := [⟨1, a⟩], promises := []
        , running := [], inflight := []
        , handles := [(0, HandleState.unsettled), (1, ofOutcome o)]
        , nextId := 2, startLog := [dupExec a], errors := [] } := by
    simp [dupExec, delProm, delRunning, eraseExec, settleHandle]
  rw [hfields]
  rw [run_eq_start _ ⟨1, a⟩ []
    (by show ¬ (1 : Int) ≤ ((0 : Nat) : Int); decide) rfl]
  rw [runDequeued_eq_error _ ⟨1, a⟩ [] (by simp [lookupProm])]
  rfl

/-- Claim C9: pushing the same callable `a` twice before its first
queued occurrence finishes makes the second push overwrite the shared
per-callable promise entry (`promises.get(a)` is the second promise);
the first push's handle stays unsettled along every continuation; the
scheduler executes the callable once, binding that execution to the
second promise, so the second handle settles with the (single) first
execution's outcome; and when the scheduler dequeues the second
occurrence after the first finished it hits the
missing-promise-callbacks internal error instead of executing the
callable again (the start log still has exactly the one execution). -/
theorem duplicate_push_overwrites_binding (a : Action) (o : Outcome)
    (tr : List Event) :
    lookupProm (dupPushState a).promises a = some 1 ∧
    handleVal (dupPushState a).handles 0 = some HandleState.unsettled ∧
    handleVal (applyEvents tr (dupPushState a)).handles 0
      = some HandleState.unsettled ∧
    (run (dupPushState a)).inflight = [dupExec a] ∧
    (run (dupPushState a)).pending = [⟨1, a⟩] ∧
    handleVal (settle (run (dupPushState a)) (dupExec a) o).handles 1
      = some (ofOutcome o) ∧
    (settle (run (dupPushState a)) (dupExec a) o).errors
      = [QErr.missingPromiseCallbacks a] ∧
    (settle (run (dupPushState a)) (dupExec a) o).startLog = [dupExec a] := by
  have hval0 : handleVal (dupPushState a).handles 0
      = some HandleState.unsettled := by
    rw [dupPushState_eq]
    simp [handleVal]
  refine ⟨?_, hval0, ?_, ?_, ?_, ?_, ?_, ?_⟩
  · rw [dupPushState_eq]
    simp [lookupProm]
  · have hdet : DetachedBinding 0 (dupPushState a) := by
      rw [dupPushState_eq]
      refine ⟨?_, ?_, ?_⟩
      · intro e2 he2
        exact absurd he2 (List.not_mem_nil e2)
      · intro t2 ht2
        rcases List.mem_cons.mp ht2 with h2 | h2
        · rw [h2]; simp [lookupProm]
        · rcases List.mem_cons.mp h2 with h3 | h3
          · rw [h3]; simp [lookupProm]
          · exact absurd h3 (List.not_mem_nil t2)
      · show (0 : Nat) < 2
        omega
    rw [detached_trace 0 tr (dupPushState a) hdet]
    exact hval0
  · rw [dupRun_eq]
  · rw [dupRun_eq]
  · rw [dupSettle_eq]
    simp [handleVal]
  · rw [dupSettle_eq]
  · rw [dupSettle_eq]

/-! ## Claim C2: every pushed task's handle settles exactly once, with
its own outcome -/

theorem settleHandle_append (l1 l2 : List (Nat × HandleState)) (b : Nat)
    (o : Outcome) :
    settleHandle (l1 ++ l2) b o = settleHandle l1 b o ++ settleHandle l2 b o := by
  induction l1 with
  | nil => rfl
  | cons q l1 ih =>
    show (if q.1 = b ∧ q.2 = HandleState.unsettled then (q.1, ofOutcome o) else q)
        :: settleHandle (l1 ++ l2) b o = _
    rw [ih]
    rfl

theorem settleHandle_skip (l : List (Nat × HandleState)) (b : Nat) (o : Outcome)
    (h : ∀ q ∈ l, q.1 ≠ b) : settleHandle l b o = l := by
  induction l with
  | nil => rfl
  | cons q l ih =>
    have hq : q.1 ≠ b := h q (List.mem_cons_self q l)
    have hcond : ¬ (q.1 = b ∧ q.2 = HandleState.unsettled) := fun hc => hq hc.1
    show (if q.1 = b ∧ q.2 = HandleState.unsettled then (q.1, ofOutcome o) else q)
        :: settleHandle l b o = q :: l
    rw [if_neg hcond, ih (fun q2 hq2 => h q2 (List.mem_cons_of_mem q hq2))]

theorem delProm_skip (ps : List (Action × Nat)) (a : Action)
    (h : ∀ q ∈ ps, q.1 ≠ a) : delProm ps a = ps := by
  induction ps with
  | nil => rfl
  | cons q ps ih =>
    have hq : q.1 ≠ a := h q (List.mem_cons_self q ps)
    show (if q.1 = a then delProm ps a else q :: delProm ps a) = q :: ps
    rw [if_neg hq, ih (fun q2 hq2 => h q2 (List.mem_cons_of_mem q hq2))]

theorem mkUnsettled_key_ge (bs : List Action) :
    ∀ (p : Nat), ∀ q ∈ mkUnsettled p bs, p ≤ q.1 := by
  induction bs with
  | nil =>
    intro p q hq
    exact absurd hq (List.not_mem_nil q)
  | cons b bs ih =>
    intro p q hq
    rcases List.mem_cons.mp hq with h | h
    · rw [h]
    · have := ih (p + 1) q h
      omega

theorem mkProm_key_mem (bs : List Action) :
    ∀ (p : Nat), ∀ q ∈ mkProm p bs, q.1 ∈ bs := by
  induction bs with
  | nil =>
    intro p q hq
    exact absurd hq (List.not_mem_nil q)
  | cons b bs ih =>
    intro p q hq
    rcases List.mem_cons.mp hq with h | h
    · rw [h]
      exact List.mem_cons_self b bs
    · exact List.mem_cons_of_mem b (ih (p + 1) q h)

theorem handleVal_mkSettled (out : Action → Outcome) (bs : List Action) :
    ∀ (p i : Nat), handleVal (mkSettled out p bs) (p + i)
      = (bs.get? i).map (fun a => ofOutcome (out a)) := by
  induction bs with
  | nil => intro p i; rfl
  | cons b bs ih =>
    intro p i
    cases i with
    | zero =>
      show (if p = p + 0 then some (ofOutcome (out b))
        else handleVal (mkSettled out (p + 1) bs) (p + 0)) = some (ofOutcome (out b))
      rw [if_pos (show p = p + 0 from rfl)]
    | succ i =>
      show (if p = p + (i + 1) then some (ofOutcome (out b))
        else handleVal (mkSettled out (p + 1) bs) (p + (i + 1)))
        = (bs.get? i).map (fun a => ofOutcome (out a))
      rw [if_neg (by omega)]
      have harith : p + (i + 1) = (p + 1) + i := by omega
      rw [harith, ih (p + 1) i]

theorem pushAll_shape (as : List Action) :
    ∀ (s : QueueState), as.Nodup →
      (∀ x ∈ as, lookupProm s.promises x = none) →
      pushAll s as
        = { s with pending := s.pending ++ mkTasks s.nextId as
                 , promises := s.promises ++ mkProm s.nextId as
                 , handles := s.handles ++ mkUnsettled s.nextId as
                 , nextId := s.nextId + as.length } := by
  induction as with
  | nil =>
    intro s _ _
    show s = _
    simp [mkTasks, mkProm, mkUnsettled]
  | cons a as ih =>
    intro s hnd hfresh
    have hnone : lookupProm s.promises a = none :=
      hfresh a (List.mem_cons_self a as)
    have hset : setProm s.promises a s.nextId = s.promises ++ [(a, s.nextId)] := by
      unfold setProm
      rw [hnone]
      rfl
    have hfresh2 : ∀ x ∈ as, lookupProm (push s a).promises x = none := by
      intro x hx
      show lookupProm (setProm s.promises a s.nextId) x = none
      rw [lookupProm_setProm]
      have hxa : ¬ x = a := by
        intro hcon
        rw [hcon] at hx
        exact (List.nodup_cons.mp hnd).1 hx
      rw [if_neg hxa]
      exact hfresh x (List.mem_cons_of_mem a hx)
    show pushAll (push s a) as = _
    rw [ih (push s a) (List.nodup_cons.mp hnd).2 hfresh2]
    simp only [push, hset]
    rw [List.append_assoc s.pending, List.append_assoc s.promises,
        List.append_assoc s.handles]
    rw [show s.nextId + 1 + as.length = s.nextId + (a :: as).length from by
      simp only [List.length_cons]; omega]
    rfl

/-- The canonical fair schedule settles the current execution, starts
the next pending task, and repeats: each handle ends up settled with
its own task's outcome. -/
theorem drain_loop (out : Action → Outcome) (bs : List Action) :
    ∀ (p : Nat) (a : Action) (k : Int)
      (doneH : List (Nat × HandleState)) (sl : List Exec),
      1 ≤ k → a ∉ bs → bs.Nodup → (∀ q ∈ doneH, q.1 < p) →
      drain out (bs.length + 1)
        { limit := k
        , pending := mkTasks (p + 1) bs
        , promises := mkProm p (a :: bs)
        , running := [a]
        , inflight := [⟨⟨p, a⟩, p⟩]
        , handles := doneH ++ mkUnsettled p (a :: bs)
        , nextId := p + 1 + bs.length
        , startLog := sl
        , errors := [] }
        = { limit := k
          , pending := []
          , promises := []
          , running := []
          , inflight := []
          , handles := doneH ++ mkSettled out p (a :: bs)
          , nextId := p + 1 + bs.length
          , startLog := sl ++ mkExecs (p + 1) bs
          , errors := [] } := by
  induction bs with
  | nil =>
    intro p a k doneH sl hk ha hnd hdone
    have hkeys : ∀ q ∈ doneH, q.1 ≠ p := fun q hq => Nat.ne_of_lt (hdone q hq)
    have hsh : settleHandle (doneH ++ mkUnsettled p [a]) p (out a)
        = doneH ++ [(p, ofOutcome (out a))] := by
      rw [settleHandle_append, settleHandle_skip doneH p (out a) hkeys]
      show doneH ++ ((if p = p ∧ HandleState.unsettled = HandleState.unsettled
          then ((p : Nat), ofOutcome (out a)) else (p, HandleState.unsettled))
        :: settleHandle (mkUnsettled (p + 1) []) p (out a)) = _
      rw [if_pos ⟨rfl, rfl⟩]
      rfl
    show settle
      { limit := k, pending := [], promises := [(a, p)], running := [a]
      , inflight := [⟨⟨p, a⟩, p⟩]
      , handles := doneH ++ mkUnsettled p [a]
      , nextId := p + 1 + List.length ([] : List Action)
      , startLog := sl, errors := [] } ⟨⟨p, a⟩, p⟩ (out a) = _
    unfold settle
    rw [if_pos (List.mem_singleton.mpr rfl)]
    rw [run_eq_of_pending_nil _ rfl]
    apply queueState_ext
    · rfl
    · rfl
    · show (if a = a then delProm [] a else (a, p) :: delProm [] a) = []
      rw [if_pos rfl]
      rfl
    · show (if a = a then delRunning [] a else a :: delRunning [] a) = []
      rw [if_pos rfl]
      rfl
    · show (if (⟨⟨p, a⟩, p⟩ : Exec) = ⟨⟨p, a⟩, p⟩ then ([] : List Exec)
        else ⟨⟨p, a⟩, p⟩ :: eraseExec [] ⟨⟨p, a⟩, p⟩) = []
      rw [if_pos rfl]
    · exact hsh
    · rfl
    · exact (List.append_nil sl).symm
    · rfl
  | cons b bs ih =>
    intro p a k doneH sl hk ha hnd hdone
    have hanotbs : a ∉ bs := fun hcon => ha (List.mem_cons_of_mem b hcon)
    have hbnotbs : b ∉ bs := (List.nodup_cons.mp hnd).1
    have hndbs : bs.Nodup := (List.nodup_cons.mp hnd).2
    have hkeys : ∀ q ∈ doneH, q.1 ≠ p := fun q hq => Nat.ne_of_lt (hdone q hq)
    have her : eraseExec [⟨⟨p, a⟩, p⟩] (⟨⟨p, a⟩, p⟩ : Exec) = [] := by
      show (if (⟨⟨p, a⟩, p⟩ : Exec) = ⟨⟨p, a⟩, p⟩ then ([] : List Exec)
        else ⟨⟨p, a⟩, p⟩ :: eraseExec [] ⟨⟨p, a⟩, p⟩) = []
      rw [if_pos rfl]
    have hdr : delRunning [a] a = [] := by
      show (if a = a then delRunning [] a else a :: delRunning [] a) = []
      rw [if_pos rfl]
      rfl
    have hsh : settleHandle (doneH ++ mkUnsettled p (a :: b :: bs)) p (out a)
        = (doneH ++ [(p, ofOutcome (out a))]) ++ mkUnsettled (p + 1) (b :: bs) := by
      rw [settleHandle_append, settleHandle_skip doneH p (out a) hkeys]
      show doneH ++ ((if p = p ∧ HandleState.unsettled = HandleState.unsettled
          then ((p : Nat), ofOutcome (out a)) else (p, HandleState.unsettled))
        :: settleHandle (mkUnsettled (p + 1) (b :: bs)) p (out a)) = _
      rw [if_pos ⟨rfl, rfl⟩]
      rw [settleHandle_skip (mkUnsettled (p + 1) (b :: bs)) p (out a)
        (fun q hq => by
          have := mkUnsettled_key_ge (b :: bs) (p + 1) q hq
          omega)]
      rw [List.append_assoc]
      rfl
    have hdp : delProm (mkProm p (a :: b :: bs)) a = mkProm (p + 1) (b :: bs) := by
      show (if a = a then delProm (mkProm (p + 1) (b :: bs)) a
        else (a, p) :: delProm (mkProm (p + 1) (b :: bs)) a) = _
      rw [if_pos rfl]
      exact delProm_skip _ a (fun q hq => by
        have hmem := mkProm_key_mem (b :: bs) (p + 1) q hq
        intro hcon
        rw [hcon] at hmem
        exact ha hmem)
    have hl : lookupProm (mkProm (p + 1) (b :: bs)) b = some (p + 1) := by
      show (if b = b then some (p + 1) else lookupProm (mkProm (p + 1 + 1) bs) b)
        = some (p + 1)
      rw [if_pos rfl]
    have har : addRunning [] b = [b] := by
      show (if b ∈ ([] : List Action) then ([] : List Action) else [] ++ [b]) = [b]
      rw [if_neg (List.not_mem_nil b)]
      rfl
    have hstep : drainStep out
        { limit := k
        , pending := mkTasks (p + 1) (b :: bs)
        , promises := mkProm p (a :: b :: bs)
        , running := [a]
        , inflight := [⟨⟨p, a⟩, p⟩]
        , handles := doneH ++ mkUnsettled p (a :: b :: bs)
        , nextId := p + 1 + (b :: bs).length
        , startLog := sl
        , errors := [] }
        = { limit := k
          , pending := mkTasks (p + 1 + 1) bs
          , promises := mkProm (p + 1) (b :: bs)
          , running := [b]
          , inflight := [⟨⟨p + 1, b⟩, p + 1⟩]
          , handles := (doneH ++ [(p, ofOutcome (out a))]) ++ mkUnsettled (p + 1) (b :: bs)
          , nextId := p + 1 + 1 + bs.length
          , startLog := sl ++ [⟨⟨p + 1, b⟩, p + 1⟩]
          , errors := [] } := by
      show settle
        { limit := k
        , pending := mkTasks (p + 1) (b :: bs)
        , promises := mkProm p (a :: b :: bs)
        , running := [a]
        , inflight := [⟨⟨p, a⟩, p⟩]
        , handles := doneH ++ mkUnsettled p (a :: b :: bs)
        , nextId := p + 1 + (b :: bs).length
        , startLog := sl
        , errors := [] } ⟨⟨p, a⟩, p⟩ (out a) = _
      unfold settle
      rw [if_pos (List.mem_singleton.mpr rfl)]
      show run
        { limit := k
        , pending := mkTasks (p + 1) (b :: bs)
        , promises := delProm (mkProm p (a :: b :: bs)) a
        , running := delRunning [a] a
        , inflight := eraseExec [⟨⟨p, a⟩, p⟩] ⟨⟨p, a⟩, p⟩
        , handles := settleHandle (doneH ++ mkUnsettled p (a :: b :: bs)) p (out a)
        , nextId := p + 1 + (b :: bs).length
        , startLog := sl
        , errors := [] } = _
      rw [her, hdr, hsh, hdp]
      rw [run_eq_start _ ⟨p + 1, b⟩ (mkTasks (p + 1 + 1) bs)
        (by show ¬ k ≤ ((0 : Nat) : Int); omega) rfl]
      rw [runDequeued_eq_some _ ⟨p + 1, b⟩ (mkTasks (p + 1 + 1) bs) (p + 1) hl]
      apply queueState_ext
      · rfl
      · rfl
      · rfl
      · exact har
      · rfl
      · rfl
      · show p + 1 + (b :: bs).length = p + 1 + 1 + bs.length
        simp only [List.length_cons]
        omega
      · rfl
      · rfl
    show drain out (bs.length + 1)
      (drainStep out
        { limit := k
        , pending := mkTasks (p + 1) (b :: bs)
        , promises := mkProm p (a :: b :: bs)
        , running := [a]
        , inflight := [⟨⟨p, a⟩, p⟩]
        , handles := doneH ++ mkUnsettled p (a :: b :: bs)
        , nextId := p + 1 + (b :: bs).length
        , startLog := sl
        , errors := [] }) = _
    rw [hstep]
    rw [ih (p + 1) b k (doneH ++ [(p, ofOutcome (out a))])
      (sl ++ [(⟨⟨p + 1, b⟩, p + 1⟩ : Exec)])
      hk hbnotbs hndbs
      (by
        intro q hq
        rcases List.mem_append.mp hq with h2 | h2
        · have := hdone q h2
          omega
        · have : q = (p, ofOutcome (out a)) := by simpa using h2
          rw [this]
          show p < p + 1
          omega)]
    apply queueState_ext
    · rfl
    · rfl
    · rfl
    · rfl
    · rfl
    · show (doneH ++ [(p, ofOutcome (out a))]) ++ mkSettled out (p + 1) (b :: bs)
        = doneH ++ mkSettled out p (a :: b :: bs)
      rw [List.append_assoc]
      rfl
    · show p + 1 + 1 + bs.length = p + 1 + (b :: bs).length
      simp only [List.length_cons]
      omega
    · show (sl ++ [⟨⟨p + 1, b⟩, p + 1⟩]) ++ mkExecs (p + 1 + 1) bs
        = sl ++ mkExecs (p + 1) (b :: bs)
      rw [List.append_assoc]
      rfl
    · rfl

/-- Claim C2: pushing distinct task callables into a `queue(k)` with
`k ≥ 1` and running the canonical fair schedule settles every handle
with its own task's outcome — `resolve` with the value on success,
`reject` with the error on failure; moreover a settled handle is never
changed again by any later event (settles at most once), and settling
one execution (in particular a failing one) leaves every other
promise's state untouched, so one task's failure never settles,
cancels, or blocks a sibling's handle. -/
theorem push_settles_each_handle_exactly_once (k : Int) (hk : 1 ≤ k)
    (as : List Action) (hnd : as.Nodup) (out : Action → Outcome) :
    (drain out (as.length + 1) (pushAll (mkQueue k) as)).handles
        = mkSettled out 0 as ∧
    (∀ i : Nat,
      handleVal (drain out (as.length + 1) (pushAll (mkQueue k) as)).handles i
        = (as.get? i).map (fun a => ofOutcome (out a))) ∧
    (∀ (s : QueueState) (e : Event) (b : Nat) (v : HandleState),
      handleVal s.handles b = some v → v ≠ HandleState.unsettled →
      handleVal (step s e).handles b = some v) ∧
    (∀ (s : QueueState) (e : Exec) (o : Outcome) (b : Nat),
      b ≠ e.binding →
      handleVal (settle s e o).handles b = handleVal s.handles b) := by
  have hfrozen : ∀ (s : QueueState) (e : Event) (b : Nat) (v : HandleState),
      handleVal s.handles b = some v → v ≠ HandleState.unsettled →
      handleVal (step s e).handles b = some v := by
    intro s e b v hv hvs
    cases e with
    | push a => exact handleVal_append_some _ _ _ _ hv
    | runTrigger =>
      show handleVal (run s).handles b = some v
      rw [run_handles]
      exact hv
    | settle e2 o =>
      show handleVal (settle s e2 o).handles b = some v
      unfold settle
      split
      · rw [run_handles]
        show handleVal (settleHandle s.handles e2.binding o) b = some v
        rw [handleVal_settleHandle, hv]
        simp [hvs]
      · exact hv
    | clear => exact hv
  have hindep : ∀ (s : QueueState) (e : Exec) (o : Outcome) (b : Nat),
      b ≠ e.binding →
      handleVal (settle s e o).handles b = handleVal s.handles b := by
    intro s e o b hb
    unfold settle
    split
    · rw [run_handles]
      show handleVal (settleHandle s.handles e.binding o) b = handleVal s.handles b
      rw [handleVal_settleHandle]
      cases hv : handleVal s.handles b with
      | none => rfl
      | some v => simp [hb]
    · rfl
  have hpush : pushAll (mkQueue k) as
      = { limit := k, pending := mkTasks 0 as, promises := mkProm 0 as
        , running := [], inflight := [], handles := mkUnsettled 0 as
        , nextId := as.length, startLog := [], errors := [] } := by
    rw [pushAll_shape as (mkQueue k) hnd (fun x _ => rfl)]
    apply queueState_ext
    · rfl
    · rfl
    · rfl
    · rfl
    · rfl
    · rfl
    · show (0 : Nat) + as.length = as.length
      omega
    · rfl
    · rfl
  have hmain : (drain out (as.length + 1) (pushAll (mkQueue k) as)).handles
      = mkSettled out 0 as := by
    rw [hpush]
    cases as with
    | nil =>
      show (run
        { limit := k, pending := [], promises := [], running := []
        , inflight := [], handles := [], nextId := 0, startLog := []
        , errors := [] }).handles = []
      rw [run_eq_of_pending_nil _ rfl]
    | cons a as2 =>
      have hnot : a ∉ as2 := (List.nodup_cons.mp hnd).1
      have hnd2 : as2.Nodup := (List.nodup_cons.mp hnd).2
      have hstep1 : drainStep out
          { limit := k, pending := mkTasks 0 (a :: as2)
          , promises := mkProm 0 (a :: as2), running := [], inflight := []
          , handles := mkUnsettled 0 (a :: as2), nextId := (a :: as2).length
          , startLog := [], errors := [] }
          = { limit := k, pending := mkTasks (0 + 1) as2
            , promises := mkProm 0 (a :: as2), running := [a]
            , inflight := [⟨⟨0, a⟩, 0⟩]
            , handles := [] ++ mkUnsettled 0 (a :: as2)
            , nextId := 0 + 1 + as2.length
            , startLog := [(⟨⟨0, a⟩, 0⟩ : Exec)], errors := [] } := by
        show run
          { limit := k, pending := mkTasks 0 (a :: as2)
          , promises := mkProm 0 (a :: as2), running := [], inflight := []
          , handles := mkUnsettled 0 (a :: as2), nextId := (a :: as2).length
          , startLog := [], errors := [] } = _
        rw [run_eq_start _ ⟨0, a⟩ (mkTasks (0 + 1) as2)
          (by show ¬ k ≤ ((0 : Nat) : Int); omega) rfl]
        rw [runDequeued_eq_some _ ⟨0, a⟩ (mkTasks (0 + 1) as2) 0
          (by
            show (if a = a then some 0 else lookupProm (mkProm (0 + 1) as2) a)
              = some 0
            rw [if_pos rfl])]
        apply queueState_ext
        · rfl
        · rfl
        · rfl
        · show (if a ∈ ([] : List Action) then ([] : List Action) else [] ++ [a])
            = [a]
          rw [if_neg (List.not_mem_nil a)]
          rfl
        · rfl
        · rfl
        · show (a :: as2).length = 0 + 1 + as2.length
          simp only [List.length_cons]
          omega
        · rfl
        · rfl
      show (drain out (as2.length + 1)
        (drainStep out
          { limit := k, pending := mkTasks 0 (a :: as2)
          , promises := mkProm 0 (a :: as2), running := [], inflight := []
          , handles := mkUnsettled 0 (a :: as2), nextId := (a :: as2).length
          , startLog := [], errors := [] })).handles = mkSettled out 0 (a :: as2)
      rw [hstep1]
      rw [drain_loop out as2 0 a k [] [(⟨⟨0, a⟩, 0⟩ : Exec)] hk hnot hnd2
        (fun q hq => absurd hq (List.not_mem_nil q))]
      rfl
  refine ⟨hmain, ?_, hfrozen, hindep⟩
  intro i
  rw [hmain]
  have h := handleVal_mkSettled out as 0 i
  rw [Nat.zero_add] at h
  exact h

theorem push_settles_each_handle_exactly_once_witness :
    (drain (fun a => Outcome.success (a * 10)) 3
        (pushAll (mkQueue 2) [4, 7])).handles
      = mkSettled (fun a => Outcome.success (a * 10)) 0 [4, 7] :=
  (push_settles_each_handle_exactly_once 2 (by decide) [4, 7] (by decide)
    (fun a => Outcome.success (a * 10))).1

end Batcave
